import Mathlib

/-!
Verification of the makedot core (a Makefile-to-dependency-graph extractor).

This file shallowly embeds the data model and operations of the program:
the variable resolver (Makefile::resolve_vars in src/makefile.rs), the
recipe command scanner (Makefile::parse_make_line), the term assembler
(Makefile::from_terms), the shared ID generator (IDGen), the cross-file
walker loop (Makefile::walk_from, with file reading/parsing/canonicalizing
abstracted as an oracle since it is filesystem I/O), and the nom combinator
grammar of src/parser.rs.  Strings are embedded as Lean String / List Char;
Rust HashMap String-keyed maps are embedded as association lists (insertion
at the front, first-match lookup, matching last-insert-wins semantics).
All definitions are executable so claims can be evaluated on concrete
inputs.
-/

/-! Character classes used by the regexes in src/makefile.rs.
The regex crate classes \s and \w are used on ASCII text here; we embed the
ASCII fragment. -/

def isWs (c : Char) : Bool :=
  c = ' ' ∨ c = '\t' ∨ c = '\n' ∨ c = '\r' ∨ c = '\x0b' ∨ c = '\x0c'

def isWord (c : Char) : Bool :=
  c.isAlphanum ∨ c = '_'

/-! Embedding of Makefile::resolve_vars (src/makefile.rs lines 116-125).
The regex \$\{([^}]+)\} is replaced over the input left to right
(replace_all semantics: non-overlapping, replacement text not rescanned).
The replacement closure looks the captured name up in the variable map and
falls back to the WHOLE original string when the name is absent
(variables.get(key).unwrap_or(str.0)). -/

def findClose : List Char → Option (List Char × List Char)
  | [] => none
  | c :: cs =>
      if c = '}' then some ([], cs)
      else
        match findClose cs with
        | some (n, r) => some (c :: n, r)
        | none => none

def substAux (orig : String) (vars : List (String × String)) :
    Nat → List Char → List Char
  | 0, l => l
  | _ + 1, [] => []
  | f + 1, c :: cs =>
      if c = '$' then
        match cs with
        | d :: ds =>
            if d = '{' then
              match findClose ds with
              | some (n, r) =>
                  if n.isEmpty then '$' :: substAux orig vars f (d :: ds)
                  else ((vars.lookup n.asString).getD orig).data ++
                       substAux orig vars f r
              | none => '$' :: substAux orig vars f (d :: ds)
            else c :: substAux orig vars f cs
        | [] => [c]
      else c :: substAux orig vars f cs

def resolve_vars (vars : List (String × String)) (s : String) : String :=
  (substAux s vars (s.data.length + 1) s.data).asString

/-! Embedding of Makefile::parse_make_line (src/makefile.rs lines 210-227).
Three regexes: re_cmd finds the first occurrence of the literal text
followed by one or more argument characters (escaped-newline pairs or
characters outside newline/hash/pipe/ampersand/gt), re_positionals
collects the whitespace-preceded words via successive non-overlapping
matches (each match consumes its trailing whitespace), and re_path finds
the first -C or -f flag value. -/

def takeCmdArgs : List Char → List Char
  | [] => []
  | '\\' :: '\n' :: ds => '\\' :: '\n' :: takeCmdArgs ds
  | c :: cs =>
      if c = '\n' ∨ c = '#' ∨ c = '|' ∨ c = '&' ∨ c = '>' then []
      else c :: takeCmdArgs cs

def afterMake : List Char → Option (List Char)
  | 'm' :: 'a' :: 'k' :: 'e' :: ' ' :: rest => some rest
  | _ => none

def findMake : List Char → Option (List Char)
  | [] => none
  | c :: cs =>
      match afterMake (c :: cs) with
      | some rest =>
          let t := takeCmdArgs rest
          if t.isEmpty then findMake cs else some t
      | none => findMake cs

def tokChar (c : Char) : Bool :=
  ¬ (c = '=' ∨ c = ':' ∨ c = '/' ∨ isWs c)

def spanP (p : Char → Bool) : List Char → List Char × List Char
  | [] => ([], [])
  | c :: cs =>
      if p c then
        let q := spanP p cs
        (c :: q.1, q.2)
      else ([], c :: cs)

def positionals : Nat → List Char → List (List Char)
  | 0, _ => []
  | _ + 1, [] => []
  | f + 1, c :: [] => if isWs c then [] else positionals f []
  | f + 1, c :: d :: ds =>
      if isWs c then
        if isWord d then
          if (spanP tokChar ds).1.isEmpty then positionals f (d :: ds)
          else
            if (spanP tokChar ds).2.isEmpty then [d :: (spanP tokChar ds).1]
            else
              if isWs ((spanP tokChar ds).2.headD ' ') then
                (d :: (spanP tokChar ds).1) :: positionals f (spanP tokChar ds).2.tail
              else positionals f (d :: ds)
        else positionals f (d :: ds)
      else positionals f (d :: ds)

def takeFTok : List Char → List Char
  | [] => []
  | '\\' :: ' ' :: ds => '\\' :: ' ' :: takeFTok ds
  | c :: cs => if isWs c then [] else c :: takeFTok cs

def tryC : List Char → Option (List Char)
  | '-' :: 'C' :: rest =>
      match rest with
      | ' ' :: r2 =>
          let t := (spanP (fun c => ¬ isWs c) r2).1
          if t.isEmpty then none else some t
      | _ =>
          let t := (spanP (fun c => ¬ isWs c) rest).1
          if t.isEmpty then none else some t
  | _ => none

def tryF : List Char → Option (List Char)
  | '-' :: 'f' :: rest =>
      match rest with
      | ' ' :: r2 =>
          let t := takeFTok r2
          if t.isEmpty then none else some t
      | _ =>
          let t := takeFTok rest
          if t.isEmpty then none else some t
  | _ => none

def findPath : List Char → Option (List Char)
  | [] => none
  | c :: cs =>
      match tryC (c :: cs) with
      | some t => some t
      | none =>
          match tryF (c :: cs) with
          | some t => some t
          | none => findPath cs

def parse_make_line (line : String) : Option (String × List String) :=
  match findMake line.data with
  | none => none
  | some args =>
      let tasks := (positionals (args.length + 1) args).map List.asString
      match findPath args with
      | none => none
      | some p => some (p.asString, tasks)

/-! Embedding of the syntactic terms (src/ast.rs).  Borrowed string slices
become owned Strings. -/

inductive Term where
  | task (name : String) (dependencies : List String) (commands : List String)
  | var (name : String) (op : String) (value : String)
  | emp
  | unimpl (reason : String)
deriving DecidableEq

/-! Embedding of the semantic model (src/makefile.rs): Task, Makefile,
External (with VarStr paths kept as plain strings), and the ID generator. -/

structure MTask where
  phony : Bool
  name : String
  dependencies : List String
  commands : List String
deriving DecidableEq

structure External where
  path : String
  id : String
  tasks : List String
deriving DecidableEq

structure Makefile where
  file : String
  vars : List (String × String)
  tasks : List (String × MTask)
deriving DecidableEq

/-! IDGen (src/makefile.rs lines 24-35): format("{}{}", prefix, counter)
then increment.  natStr embeds the decimal rendering of a usize by the
standard Display algorithm (most significant digit first). -/

def natStrAux : Nat → Nat → List Char
  | 0, _ => []
  | f + 1, n =>
      if n < 10 then [Nat.digitChar n]
      else natStrAux f (n / 10) ++ [Nat.digitChar (n % 10)]

def natStr (n : Nat) : String := (natStrAux (n + 1) n).asString

structure IDGen where
  pre : String
  counter : Nat
deriving DecidableEq

def IDGen.next (g : IDGen) : String × IDGen :=
  (g.pre ++ natStr g.counter, ⟨g.pre, g.counter + 1⟩)

/-! Embedding of Makefile::from_terms (src/makefile.rs lines 148-208).
The first pass collects the union of the dependency lists of all Task
terms named .PHONY, in declaration order.  The second pass walks the terms
in order: every Task term draws a fresh ID, contributes its commands'
make-invocations to the external set, and is inserted into the ID-keyed
task map; Variable terms overwrite by name; Empty and Unimplemented terms
are skipped.  (Path canonicalization is filesystem I/O; the path is kept
as given.) -/

def phoniesOf (terms : List Term) : List String :=
  (terms.filterMap (fun t =>
    match t with
    | Term.task n deps _ => if n = ".PHONY" then some deps else none
    | _ => none)).flatten

def fromTermsStep (phonies : List String)
    (acc : Makefile × IDGen × List External) (t : Term) :
    Makefile × IDGen × List External :=
  let m := acc.1
  let g := acc.2.1
  let ext := acc.2.2
  match t with
  | Term.task n deps cmds =>
      let idg := g.next
      let newExts := (cmds.filterMap parse_make_line).map
        (fun pt => External.mk pt.1 idg.1 pt.2)
      (⟨m.file, m.vars,
        m.tasks ++ [(idg.1, ⟨phonies.contains n, n, deps, cmds⟩)]⟩,
       idg.2, ext ++ newExts)
  | Term.var n _ v => (⟨m.file, (n, v) :: m.vars, m.tasks⟩, g, ext)
  | _ => (m, g, ext)

def from_terms (g : IDGen) (external : List External) (path : String)
    (terms : List Term) : Makefile × IDGen × List External :=
  terms.foldl (fromTermsStep (phoniesOf terms)) (⟨path, [], []⟩, g, external)

/-! One shared generator threaded across the files of a whole walk
(Makefile::walk_from creates a single IDGen "task" and passes it to every
from_terms call). -/

def ingestAll : IDGen → List (List Term) → List Makefile × IDGen
  | g, [] => ([], g)
  | g, ts :: rest =>
      let r1 := from_terms g [] "f" ts
      let r2 := ingestAll r1.2.1 rest
      (r1.1 :: r2.1, r2.2)

/-! Embedding of the queue discipline of Makefile::walk_from
(src/makefile.rs lines 79-114).  Reading, parsing and resolving a file is
filesystem I/O, abstracted as an oracle fs giving, for each canonical
path, the list of resolution outcomes of the external make-invocations
discovered in that file (none = canonicalization failed: the edge is
dropped and the walk continues, mirroring the filter_map over
resolve_makefile results).  Each resolved path is enqueued only if it is
in neither the pending queue nor the completed list; the currently
processed path is pushed onto the completed list only after its edges are
handled; every resolved edge is recorded.  Fuel bounds the loop; none
means the fuel ran out before the queue emptied. -/

def enqueueNew (outFiles : List String) :
    List String → List String → List String
  | q, [] => q
  | q, r :: rs =>
      enqueueNew outFiles (if r ∈ q ∨ r ∈ outFiles then q else q ++ [r]) rs

def walk_model (fs : String → List (Option String)) :
    Nat → List String → List String → List (String × String) →
    Option (List String × List (String × String))
  | _, [], out, edges => some (out, edges)
  | 0, _ :: _, _, _ => none
  | f + 1, p :: queue, out, edges =>
      let rs := (fs p).filterMap id
      walk_model fs f (enqueueNew out queue rs) (out ++ [p])
        (edges ++ rs.map (fun r => (p, r)))

/-! Embedding of the nom grammar (src/parser.rs).  Parsers consume a
List Char and return the parsed value with the remaining input, or none on
a parse error (the VerboseError context information is dropped).  nom's
alt tries alternatives in order; many0/many1/many_till loop, with
many_till testing its terminator before each element.  The leaf parsers
built from is_a / alphanumeric1 / one_of / none_of consume maximal runs,
embedded directly as run-consumers.  hspace0 treats an escaped newline
(backslash newline) as horizontal whitespace, as does rest; the tab flag
of hspace0 is dead in the source (both arms are identical), so a single
function is used.  Loops carry fuel; the top level seeds fuel with the
input length plus one, which every run below stays within since each loop
iteration consumes at least one character. -/

def pHspace0 : List Char → List Char
  | [] => []
  | c :: cs =>
      if c = '\\' then
        match cs with
        | d :: ds => if d = '\n' then pHspace0 ds else c :: cs
        | [] => c :: cs
      else if c = ' ' ∨ c = '\t' then pHspace0 cs
      else c :: cs

def identChar (c : Char) : Bool :=
  c.isAlphanum ∨ c = '.' ∨ c = '_' ∨ c = '-'

def pIdnt (l : List Char) : Option (List Char × List Char) :=
  let q := spanP identChar l
  if q.1.isEmpty then none else some q

def pVarRef : List Char → Option (List Char × List Char)
  | c1 :: c2 :: r =>
      if c1 = '$' ∧ c2 = '(' then
        let q := spanP (fun c => ¬ (c = ')')) r
        if q.1.isEmpty then none
        else
          match q.2 with
          | c3 :: r2 => if c3 = ')' then some ('$' :: '(' :: (q.1 ++ [')']), r2)
                        else none
          | [] => none
      else none
  | _ => none

def pIdentifier (l : List Char) : Option (List Char × List Char) :=
  match pVarRef l with
  | some r => some r
  | none => pIdnt l

def pEq : List Char → Option (List Char × List Char)
  | [] => none
  | c :: r =>
      if c = '=' then some (['='], r)
      else if c = '?' then
        match r with
        | d :: r2 => if d = '=' then some (['?', '='], r2) else none
        | [] => none
      else none

def pRest : List Char → List Char × List Char
  | [] => ([], [])
  | c :: cs =>
      if c = '\n' ∨ c = '\r' ∨ c = '#' then ([], c :: cs)
      else if c = '\\' then
        match cs with
        | d :: ds =>
            if d = '\n' then
              let q := pRest ds
              ('\\' :: '\n' :: q.1, q.2)
            else
              let q := pRest (d :: ds)
              (c :: q.1, q.2)
        | [] => ([c], [])
      else
        let q := pRest cs
        (c :: q.1, q.2)

def pEol : List Char → Option (List Char)
  | [] => some []
  | c :: r => if c = '\n' then some r else none

def commentBody : List Char → List Char
  | [] => []
  | '\\' :: '\n' :: ds => commentBody ds
  | c :: cs => if c = '\n' ∨ c = '\r' then c :: cs else commentBody cs

def pComment : List Char → Option (List Char)
  | [] => none
  | c :: r => if c = '#' then some (commentBody (pHspace0 r)) else none

def optComment (l : List Char) : List Char := (pComment l).getD l

def pTag (t : List Char) (l : List Char) : Option (List Char) :=
  if t.isPrefixOf l then some (l.drop t.length) else none

def takeUntil (t : List Char) : List Char → Option (List Char × List Char)
  | [] => if t.isPrefixOf [] then some ([], []) else none
  | c :: r =>
      if t.isPrefixOf (c :: r) then some ([], c :: r)
      else
        match takeUntil t r with
        | some q => some (c :: q.1, q.2)
        | none => none

def pDefine (l : List Char) : Option (List Char) := do
  let r1 ← pTag "define".data l
  let r2 := pHspace0 r1
  let q ← takeUntil "endef".data r2
  pTag "endef".data q.2

def pInclude (l : List Char) : Option (List Char) := do
  let r1 ← pTag "include".data l
  let q := pRest r1
  pEol (optComment q.2)

def pCondStart (l : List Char) : Option (List Char) :=
  match pTag "ifeq".data l with
  | some r => some r
  | none =>
      match pTag "ifneq".data l with
      | some r => some r
      | none =>
          match pTag "ifdef".data l with
          | some r => some r
          | none => pTag "ifndef".data l

def pConditional (l : List Char) : Option (List Char) := do
  let r1 ← pCondStart l
  let r2 := pHspace0 r1
  let q ← takeUntil "endif".data r2
  pTag "endif".data q.2

def pVar (l : List Char) :
    Option ((List Char × List Char × List Char) × List Char) := do
  let (name, r1) ← pIdentifier l
  let r2 := pHspace0 r1
  let (op, r3) ← pEq r2
  let r4 := pHspace0 r3
  let q := pRest r4
  let r5 := pHspace0 q.2
  let r6 ← pEol (optComment r5)
  pure ((name, op, q.1), r6)

def pEmpty (l : List Char) : Option (List Char) := pEol (pHspace0 l)

def pDeps : Nat → List Char → Option (List (List Char) × List Char)
  | 0, _ => none
  | f + 1, l =>
      match pEol (optComment l) with
      | some r => some ([], r)
      | none =>
          match pIdentifier l with
          | none => none
          | some (d, r) =>
              match pDeps f (pHspace0 r) with
              | some q => some (d :: q.1, q.2)
              | none => none

def pRecipeAlt (l : List Char) : Option (Option (List Char) × List Char) := do
  let r ← pComment l
  let r2 ← pEol r
  pure (none, r2)

def pRecipe (l : List Char) : Option (Option (List Char) × List Char) :=
  match l with
  | c :: r =>
      if c = '\t' then
        let q := pRest r
        match pEol (optComment q.2) with
        | some r3 => some (some q.1, r3)
        | none => pRecipeAlt l
      else pRecipeAlt l
  | [] => pRecipeAlt []

def pCmds : Nat → List Char → List (Option (List Char)) × List Char
  | 0, l => ([], l)
  | f + 1, l =>
      match pRecipe l with
      | none => ([], l)
      | some (v, r) =>
          let q := pCmds f r
          (v :: q.1, q.2)

def cmdFilter (vs : List (Option (List Char))) : List (List Char) :=
  vs.filterMap (fun o =>
    match o with
    | some v => if v.isEmpty then none else some v
    | none => none)

def pTask (fuel : Nat) (l : List Char) :
    Option ((List Char × List (List Char) × List (List Char)) × List Char) := do
  let (name, r1) ← pIdentifier l
  let r2 := pHspace0 r1
  let r3 ← (match r2 with
            | ':' :: r => some (pHspace0 r)
            | _ => none)
  let (deps, r4) ← pDeps fuel r3
  let q := pCmds fuel r4
  pure ((name, deps, cmdFilter q.1), q.2)

def pTerm (fuel : Nat) (l : List Char) : Option (Term × List Char) :=
  match pEmpty l with
  | some r => some (Term.emp, r)
  | none =>
  match pDefine l with
  | some r => some (Term.unimpl "define", r)
  | none =>
  match pInclude l with
  | some r => some (Term.unimpl "include", r)
  | none =>
  match pConditional l with
  | some r => some (Term.unimpl "conditional", r)
  | none =>
  match pVar l with
  | some q => some (Term.var q.1.1.asString q.1.2.1.asString q.1.2.2.asString, q.2)
  | none =>
  match (pComment l).bind pEol with
  | some r => some (Term.emp, r)
  | none =>
  match pTask fuel l with
  | some q =>
      some (Term.task q.1.1.asString (q.1.2.1.map List.asString)
        (q.1.2.2.map List.asString), q.2)
  | none => none

def pTerms : Nat → List Char → Option (List Term)
  | 0, _ => none
  | f + 1, l =>
      if l.isEmpty then some []
      else
        match pTerm (f + 1) l with
        | none => none
        | some (t, r) =>
            match pTerms f (pHspace0 r) with
            | some ts => some (t :: ts)
            | none => none

def parseMakefile (s : String) : Option (List Term) :=
  pTerms (s.length + 1) s.data

/-! Derived notions used by the theorems: counts and key lists of the
assembled model, the decimal value function inverting natStr, and the
well-formedness predicates of the grammar round-trip claim. -/

def numTasks (terms : List Term) : Nat :=
  (terms.filter (fun t =>
    match t with
    | Term.task _ _ _ => true
    | _ => false)).length

def allKeys (ms : List Makefile) : List String :=
  (ms.map (fun m => m.tasks.map Prod.fst)).flatten

def charVal (c : Char) : Nat := c.toNat - 48

def listVal (l : List Char) : Nat := l.foldl (fun a c => 10 * a + charVal c) 0

def totalTasks (tss : List (List Term)) : Nat := (tss.map numTasks).sum

/-! Well-formedness under the lexical rules of the grammar, for the
grammar round-trip claim: identifiers are nonempty runs of identifier
characters; command texts are nonempty, contain no newline, carriage
return or hash (the characters at which the rest-of-line parser stops or
a comment starts), and do not end in a backslash (which would fuse with
the following newline into a line continuation); a usable task name must
additionally not start with one of the keywords that the term alternation
tries before the task alternative (define, include, ifeq, ifneq, ifdef,
ifndef). -/

def IdentOk (l : List Char) : Prop :=
  l ≠ [] ∧ ∀ c ∈ l, identChar c = true

def CmdOk (l : List Char) : Prop :=
  l ≠ [] ∧ (∀ c ∈ l, c ≠ '\n' ∧ c ≠ '\r' ∧ c ≠ '#') ∧
  l.getLast? ≠ some '\\'

def NoKw (n : List Char) : Prop :=
  "define".data.isPrefixOf n = false ∧ "include".data.isPrefixOf n = false ∧
  "ifeq".data.isPrefixOf n = false ∧ "ifneq".data.isPrefixOf n = false ∧
  "ifdef".data.isPrefixOf n = false ∧ "ifndef".data.isPrefixOf n = false

instance (l : List Char) : Decidable (IdentOk l) := by
  unfold IdentOk; infer_instance

instance (l : List Char) : Decidable (CmdOk l) := by
  unfold CmdOk; infer_instance

instance (n : List Char) : Decidable (NoKw n) := by
  unfold NoKw; infer_instance

/-! Helper lemmas -/

lemma fromTerms_fold_len (terms : List Term) :
    ∀ (ph : List String) (acc : Makefile × IDGen × List External),
      ((terms.foldl (fromTermsStep ph) acc).1.tasks).length
        = acc.1.tasks.length + numTasks terms := by
  induction terms with
  | nil => intro ph acc; simp [numTasks]
  | cons t ts ih =>
      intro ph acc
      rw [List.foldl_cons, ih]
      cases t <;> (simp [fromTermsStep, numTasks, List.filter_cons]; try omega)

lemma charVal_digitChar (m : Nat) (h : m < 10) :
    charVal (Nat.digitChar m) = m := by
  interval_cases m <;> decide

lemma listVal_snoc (l : List Char) (c : Char) :
    listVal (l ++ [c]) = 10 * listVal l + charVal c := by
  simp [listVal, List.foldl_append]

lemma listVal_natStrAux : ∀ (f n : Nat), n < f → listVal (natStrAux f n) = n := by
  intro f
  induction f with
  | zero => omega
  | succ f ih =>
      intro n hn
      by_cases h10 : n < 10
      · simp [natStrAux, h10, listVal, charVal_digitChar n h10]
      · have hdiv : n / 10 < f := by
          have h1 : n / 10 < n := Nat.div_lt_self (by omega) (by omega)
          omega
        simp only [natStrAux, if_neg h10]
        rw [listVal_snoc, ih _ hdiv, charVal_digitChar _ (Nat.mod_lt n (by omega))]
        omega

lemma natStr_inj (n m : Nat) (h : natStr n = natStr m) : n = m := by
  have hd : natStrAux (n + 1) n = natStrAux (m + 1) m :=
    congrArg String.data h
  have h1 := listVal_natStrAux (n + 1) n (by omega)
  have h2 := listVal_natStrAux (m + 1) m (by omega)
  rw [hd] at h1
  omega

lemma string_append_data (s t : String) : (s ++ t).data = s.data ++ t.data := by
  cases s; cases t; rfl

lemma string_append_cancel (s a b : String) (h : s ++ a = s ++ b) : a = b := by
  have hd := congrArg String.data h
  rw [string_append_data, string_append_data] at hd
  have h2 := List.append_cancel_left hd
  cases a; cases b; exact congrArg String.mk h2

lemma fromTerms_fold_keys (terms : List Term) :
    ∀ (ph : List String) (acc : Makefile × IDGen × List External),
      ((terms.foldl (fromTermsStep ph) acc).1.tasks.map Prod.fst
          = acc.1.tasks.map Prod.fst ++
            (List.range (numTasks terms)).map
              (fun k => acc.2.1.pre ++ natStr (acc.2.1.counter + k)))
        ∧ (terms.foldl (fromTermsStep ph) acc).2.1.pre = acc.2.1.pre
        ∧ (terms.foldl (fromTermsStep ph) acc).2.1.counter
            = acc.2.1.counter + numTasks terms := by
  induction terms with
  | nil => intro ph acc; simp [numTasks]
  | cons t ts ih =>
      intro ph acc
      rw [List.foldl_cons]
      obtain ⟨ihk, ihp, ihc⟩ := ih ph (fromTermsStep ph acc t)
      cases t with
      | task n deps cmds =>
          have hnum : numTasks (Term.task n deps cmds :: ts) = numTasks ts + 1 := by
            simp [numTasks, List.filter_cons]
          refine ⟨?_, ?_, ?_⟩
          · rw [ihk]
            have hstep :
                (fromTermsStep ph acc (Term.task n deps cmds)).1.tasks.map Prod.fst
                  = acc.1.tasks.map Prod.fst ++
                    [acc.2.1.pre ++ natStr acc.2.1.counter] := by
              simp [fromTermsStep, IDGen.next]
            rw [hstep, hnum]
            have hpre : (fromTermsStep ph acc (Term.task n deps cmds)).2.1.pre
                = acc.2.1.pre := by simp [fromTermsStep, IDGen.next]
            have hctr : (fromTermsStep ph acc (Term.task n deps cmds)).2.1.counter
                = acc.2.1.counter + 1 := by simp [fromTermsStep, IDGen.next]
            rw [hpre, hctr, List.range_succ_eq_map]
            simp only [List.map_cons, List.map_map, List.append_assoc,
              List.cons_append, List.nil_append, Nat.add_zero]
            congr 2
            apply List.map_congr_left
            intro k _
            simp only [Function.comp_apply]
            congr 2
            omega
          · rw [ihp]; simp [fromTermsStep, IDGen.next]
          · rw [ihc, hnum]
            have : (fromTermsStep ph acc (Term.task n deps cmds)).2.1.counter
                = acc.2.1.counter + 1 := by simp [fromTermsStep, IDGen.next]
            omega
      | var n op v =>
          have hnum : numTasks (Term.var n op v :: ts) = numTasks ts := by
            simp [numTasks, List.filter_cons]
          refine ⟨?_, ?_, ?_⟩
          · rw [ihk, hnum]; simp [fromTermsStep]
          · rw [ihp]; simp [fromTermsStep]
          · rw [ihc, hnum]; simp [fromTermsStep]
      | emp =>
          have hnum : numTasks (Term.emp :: ts) = numTasks ts := by
            simp [numTasks, List.filter_cons]
          refine ⟨?_, ?_, ?_⟩
          · rw [ihk, hnum]; simp [fromTermsStep]
          · rw [ihp]; simp [fromTermsStep]
          · rw [ihc, hnum]; simp [fromTermsStep]
      | unimpl r =>
          have hnum : numTasks (Term.unimpl r :: ts) = numTasks ts := by
            simp [numTasks, List.filter_cons]
          refine ⟨?_, ?_, ?_⟩
          · rw [ihk, hnum]; simp [fromTermsStep]
          · rw [ihp]; simp [fromTermsStep]
          · rw [ihc, hnum]; simp [fromTermsStep]

lemma allKeys_cons (m : Makefile) (ms : List Makefile) :
    allKeys (m :: ms) = m.tasks.map Prod.fst ++ allKeys ms := by
  simp [allKeys]

lemma ingestAll_cons (g : IDGen) (ts : List Term) (rest : List (List Term)) :
    ingestAll g (ts :: rest)
      = ((from_terms g [] "f" ts).1 ::
          (ingestAll (from_terms g [] "f" ts).2.1 rest).1,
         (ingestAll (from_terms g [] "f" ts).2.1 rest).2) := by
  simp [ingestAll]

lemma ingestAll_keys : ∀ (tss : List (List Term)) (g : IDGen),
    allKeys (ingestAll g tss).1
        = (List.range (totalTasks tss)).map
            (fun k => g.pre ++ natStr (g.counter + k))
      ∧ (ingestAll g tss).2.pre = g.pre
      ∧ (ingestAll g tss).2.counter = g.counter + totalTasks tss := by
  intro tss
  induction tss with
  | nil => intro g; simp [ingestAll, allKeys, totalTasks]
  | cons ts rest ih =>
      intro g
      obtain ⟨hk1, hp1, hc1⟩ :=
        fromTerms_fold_keys ts (phoniesOf ts) (⟨"f", [], []⟩, g, [])
      obtain ⟨hk2, hp2, hc2⟩ := ih (from_terms g [] "f" ts).2.1
      have hk1' : (from_terms g [] "f" ts).1.tasks.map Prod.fst
          = (List.range (numTasks ts)).map
              (fun k => g.pre ++ natStr (g.counter + k)) := by
        rw [from_terms, hk1]; simp
      have hp1' : (from_terms g [] "f" ts).2.1.pre = g.pre := by
        rw [from_terms, hp1]
      have hc1' : (from_terms g [] "f" ts).2.1.counter
          = g.counter + numTasks ts := by
        rw [from_terms, hc1]
      have htot : totalTasks (ts :: rest) = numTasks ts + totalTasks rest := by
        simp [totalTasks]
      refine ⟨?_, ?_, ?_⟩
      · rw [ingestAll_cons]
        rw [allKeys_cons, hk1', hk2, hp1', hc1', htot, List.range_add,
          List.map_append, List.map_map]
        congr 1
        apply List.map_congr_left
        intro k _
        simp only [Function.comp_apply]
        congr 2
        omega
      · rw [ingestAll_cons]
        rw [hp2, hp1']
      · rw [ingestAll_cons]
        rw [hc2, hc1', htot]
        omega

lemma positionals_one (f : Nat) (c : Char) :
    positionals (f + 1) [c] = if isWs c then [] else positionals f [] := rfl

lemma positionals_two (f : Nat) (c d : Char) (ds : List Char) :
    positionals (f + 1) (c :: d :: ds)
      = (if isWs c then
          if isWord d then
            if (spanP tokChar ds).1.isEmpty then positionals f (d :: ds)
            else
              if (spanP tokChar ds).2.isEmpty then [d :: (spanP tokChar ds).1]
              else
                if isWs ((spanP tokChar ds).2.headD ' ') then
                  (d :: (spanP tokChar ds).1) ::
                    positionals f (spanP tokChar ds).2.tail
                else positionals f (d :: ds)
          else positionals f (d :: ds)
        else positionals f (d :: ds)) := rfl

lemma enqueueNew_nil (out q : List String) : enqueueNew out q [] = q := rfl

lemma enqueueNew_cons (out q : List String) (r : String) (rs : List String) :
    enqueueNew out q (r :: rs)
      = enqueueNew out (if r ∈ q ∨ r ∈ out then q else q ++ [r]) rs := rfl

lemma walk_model_step (fs : String → List (Option String)) (f : Nat)
    (p : String) (queue out : List String) (edges : List (String × String)) :
    walk_model fs (f + 1) (p :: queue) out edges
      = walk_model fs f (enqueueNew out queue ((fs p).filterMap id))
          (out ++ [p])
          (edges ++ ((fs p).filterMap id).map (fun r => (p, r))) := rfl

lemma walk_model_done (fs : String → List (Option String)) (f : Nat)
    (out : List String) (edges : List (String × String)) :
    walk_model fs f [] out edges = some (out, edges) := by
  cases f <;> rfl

lemma positionals_shape : ∀ (f : Nat) (l x : List Char),
    x ∈ positionals f l → ∃ d t, x = d :: t ∧ t ≠ [] := by
  intro f
  induction f with
  | zero => intro l x hx; simp [positionals] at hx
  | succ f ih =>
      intro l x hx
      match l with
      | [] => simp [positionals] at hx
      | [c] =>
          rw [positionals_one] at hx
          by_cases hws : isWs c
          · rw [if_pos hws] at hx; simp at hx
          · rw [if_neg hws] at hx; exact ih _ _ hx
      | c :: d :: ds =>
          rw [positionals_two] at hx
          by_cases hws : isWs c
          · rw [if_pos hws] at hx
            by_cases hwd : isWord d
            · rw [if_pos hwd] at hx
              by_cases he : (spanP tokChar ds).1.isEmpty
              · rw [if_pos he] at hx; exact ih _ _ hx
              · rw [if_neg he] at hx
                by_cases h2 : (spanP tokChar ds).2.isEmpty
                · rw [if_pos h2] at hx
                  simp at hx
                  exact ⟨d, (spanP tokChar ds).1, hx,
                    fun h => he (by simp [h])⟩
                · rw [if_neg h2] at hx
                  by_cases hwe : isWs ((spanP tokChar ds).2.headD ' ')
                  · rw [if_pos hwe] at hx
                    rcases List.mem_cons.mp hx with h | h
                    · exact ⟨d, (spanP tokChar ds).1, h,
                        fun hh => he (by simp [hh])⟩
                    · exact ih _ _ h
                  · rw [if_neg hwe] at hx; exact ih _ _ hx
            · rw [if_neg hwd] at hx; exact ih _ _ hx
          · rw [if_neg hws] at hx; exact ih _ _ hx

lemma identChar_ne_of (c x : Char) (h : identChar c = true)
    (hx : identChar x = false) : c ≠ x := by
  intro he; rw [he, hx] at h; exact Bool.noConfusion h

lemma spanP_exact (p : Char → Bool) : ∀ (a b : List Char),
    (∀ c ∈ a, p c = true) →
    (∀ x xs, b = x :: xs → p x = false) →
    spanP p (a ++ b) = (a, b) := by
  intro a
  induction a with
  | nil =>
      intro b _ hb
      cases b with
      | nil => rfl
      | cons x xs => simp [spanP, hb x xs rfl]
  | cons c cs ih =>
      intro b ha hb
      have hc : p c = true := ha c (by simp)
      have ihb := ih b (fun d hd => ha d (by simp [hd])) hb
      simp [spanP, hc, ihb]

lemma pIdnt_exact (n b : List Char) (hn : IdentOk n)
    (hb : ∀ x xs, b = x :: xs → identChar x = false) :
    pIdnt (n ++ b) = some (n, b) := by
  obtain ⟨hne, hall⟩ := hn
  rw [pIdnt, spanP_exact identChar n b hall hb]
  simp [hne]

lemma pVarRef_ne (c : Char) (cs : List Char) (h : c ≠ '$') :
    pVarRef (c :: cs) = none := by
  cases cs with
  | nil => rfl
  | cons d ds => simp [pVarRef, h]

lemma pIdentifier_exact (n b : List Char) (hn : IdentOk n)
    (hb : ∀ x xs, b = x :: xs → identChar x = false) :
    pIdentifier (n ++ b) = some (n, b) := by
  obtain ⟨hne, hall⟩ := hn
  cases n with
  | nil => exact absurd rfl hne
  | cons c cs =>
      have hc : identChar c = true := hall c (by simp)
      have hcd : c ≠ '$' := identChar_ne_of c '$' hc (by decide)
      rw [pIdentifier, List.cons_append, pVarRef_ne c _ hcd,
        ← List.cons_append, pIdnt_exact (c :: cs) b ⟨hne, hall⟩ hb]

lemma pHspace0_stop (c : Char) (cs : List Char) (h1 : c ≠ ' ')
    (h2 : c ≠ '\t') (h3 : c ≠ '\\') : pHspace0 (c :: cs) = c :: cs := by
  rw [pHspace0.eq_def]
  simp [h1, h2, h3]

lemma pHspace0_space (cs : List Char) : pHspace0 (' ' :: cs) = pHspace0 cs := by
  rw [pHspace0.eq_def]
  simp

lemma identChar_stop (c : Char) (cs : List Char) (h : identChar c = true) :
    pHspace0 (c :: cs) = c :: cs :=
  pHspace0_stop c cs (identChar_ne_of c ' ' h (by decide))
    (identChar_ne_of c '\t' h (by decide))
    (identChar_ne_of c '\\' h (by decide))

lemma pEol_nl (r : List Char) : pEol ('\n' :: r) = some r := rfl

lemma pEol_ne (c : Char) (r : List Char) (h : c ≠ '\n') :
    pEol (c :: r) = none := by simp [pEol, h]

lemma pComment_ne (c : Char) (r : List Char) (h : c ≠ '#') :
    pComment (c :: r) = none := by simp [pComment, h]

lemma optComment_ne (c : Char) (r : List Char) (h : c ≠ '#') :
    optComment (c :: r) = c :: r := by simp [optComment, pComment_ne c r h]

lemma identChar_optComment (c : Char) (cs : List Char)
    (h : identChar c = true) : optComment (c :: cs) = c :: cs :=
  optComment_ne c cs (identChar_ne_of c '#' h (by decide))

lemma pEq_ne (c : Char) (r : List Char) (h1 : c ≠ '=') (h2 : c ≠ '?') :
    pEq (c :: r) = none := by simp [pEq, h1, h2]

lemma pRest_run : ∀ (cmd t : List Char),
    (∀ c ∈ cmd, c ≠ '\n' ∧ c ≠ '\r' ∧ c ≠ '#') →
    cmd.getLast? ≠ some '\\' →
    pRest (cmd ++ '\n' :: t) = (cmd, '\n' :: t) := by
  intro cmd
  induction cmd with
  | nil =>
      intro t _ _
      rw [List.nil_append, pRest.eq_def]
      simp
  | cons c cs ih =>
      intro t hchars hlast
      obtain ⟨hn, hr, hh⟩ := hchars c (by simp)
      rw [List.cons_append, pRest.eq_def]
      simp only []
      rw [if_neg (by simp [hn, hr, hh])]
      by_cases hbk : c = '\\'
      · rw [if_pos hbk]
        cases cs with
        | nil => exact absurd (by rw [hbk]; rfl) hlast
        | cons d ds =>
            have hd : d ≠ '\n' := (hchars d (by simp)).1
            have hlast' : (d :: ds).getLast? ≠ some '\\' := by
              rwa [List.getLast?_cons_cons] at hlast
            simp only [List.cons_append, if_neg hd]
            have ih' := ih t (fun x hx => hchars x (by simp [hx])) hlast'
            rw [List.cons_append] at ih'
            rw [ih']
      · rw [if_neg hbk]
        have hlast' : cs.getLast? ≠ some '\\' := by
          cases cs with
          | nil => simp
          | cons d ds => rwa [List.getLast?_cons_cons] at hlast
        rw [ih t (fun x hx => hchars x (by simp [hx])) hlast']

lemma isPrefixOf_colon_break : ∀ (k n r : List Char),
    (∀ c ∈ k, c ≠ ':') → k.isPrefixOf n = false →
    k.isPrefixOf (n ++ ':' :: r) = false := by
  intro k
  induction k with
  | nil =>
      intro n r _ h2
      rw [List.isPrefixOf_nil_left] at h2
      exact Bool.noConfusion h2
  | cons c k' ih =>
      intro n r h1 h2
      cases n with
      | nil =>
          have he : (c :: k').isPrefixOf (':' :: r)
              = (c == ':' && k'.isPrefixOf r) := rfl
          rw [List.nil_append, he]
          have hc : (c == ':') = false :=
            beq_eq_false_iff_ne.mpr (h1 c (by simp))
          simp [hc]
      | cons a n' =>
          have he : (c :: k').isPrefixOf (a :: n')
              = (c == a && k'.isPrefixOf n') := rfl
          rw [he] at h2
          have hg : (c :: k').isPrefixOf ((a :: n') ++ ':' :: r)
              = (c == a && k'.isPrefixOf (n' ++ ':' :: r)) := rfl
          rw [hg]
          cases hca : (c == a) with
          | false => simp [hca]
          | true =>
              rw [hca] at h2
              simp only [Bool.true_and] at h2
              simp only [Bool.true_and]
              exact ih n' r (fun x hx => h1 x (by simp [hx])) h2

lemma pTag_none (t l : List Char) (h : t.isPrefixOf l = false) :
    pTag t l = none := by simp [pTag, h]

lemma identHead (n : List Char) (hn : IdentOk n) :
    ∃ c cs, n = c :: cs ∧ identChar c = true := by
  obtain ⟨hne, hall⟩ := hn
  cases n with
  | nil => exact absurd rfl hne
  | cons c cs => exact ⟨c, cs, rfl, hall c (by simp)⟩

lemma pHspace0_identStart (n b : List Char) (hn : IdentOk n) :
    pHspace0 (n ++ b) = n ++ b := by
  obtain ⟨c, cs, rfl, hc⟩ := identHead n hn
  rw [List.cons_append]
  exact identChar_stop c _ hc

lemma pEol_identStart (n b : List Char) (hn : IdentOk n) :
    pEol (n ++ b) = none := by
  obtain ⟨c, cs, rfl, hc⟩ := identHead n hn
  rw [List.cons_append]
  exact pEol_ne c _ (identChar_ne_of c '\n' hc (by decide))

lemma optComment_identStart (n b : List Char) (hn : IdentOk n) :
    optComment (n ++ b) = n ++ b := by
  obtain ⟨c, cs, rfl, hc⟩ := identHead n hn
  rw [List.cons_append]
  exact identChar_optComment c _ hc

lemma pComment_identStart (n b : List Char) (hn : IdentOk n) :
    pComment (n ++ b) = none := by
  obtain ⟨c, cs, rfl, hc⟩ := identHead n hn
  rw [List.cons_append]
  exact pComment_ne c _ (identChar_ne_of c '#' hc (by decide))

lemma pEmpty_identStart (n b : List Char) (hn : IdentOk n) :
    pEmpty (n ++ b) = none := by
  rw [pEmpty, pHspace0_identStart n b hn, pEol_identStart n b hn]

lemma headNot_of (c : Char) (hc : identChar c = false) (t : List Char) :
    ∀ x xs, (c :: t) = x :: xs → identChar x = false := by
  intro x xs h
  injection h with h1 _
  rw [← h1]
  exact hc

lemma pDeps_two (f : Nat) (d1 d2 rest : List Char)
    (h1 : IdentOk d1) (h2 : IdentOk d2) :
    pDeps (f + 3) (d1 ++ ' ' :: (d2 ++ '\n' :: rest)) = some ([d1, d2], rest) := by
  have e1 := optComment_identStart d1 (' ' :: (d2 ++ '\n' :: rest)) h1
  have e2 := pEol_identStart d1 (' ' :: (d2 ++ '\n' :: rest)) h1
  have e3 := pIdentifier_exact d1 (' ' :: (d2 ++ '\n' :: rest)) h1
    (headNot_of ' ' (by decide) _)
  have e4 : pHspace0 (' ' :: (d2 ++ '\n' :: rest)) = d2 ++ '\n' :: rest := by
    rw [pHspace0_space, pHspace0_identStart _ _ h2]
  have e5 := optComment_identStart d2 ('\n' :: rest) h2
  have e6 := pEol_identStart d2 ('\n' :: rest) h2
  have e7 := pIdentifier_exact d2 ('\n' :: rest) h2
    (headNot_of '\n' (by decide) _)
  have e8 : pHspace0 ('\n' :: rest) = '\n' :: rest :=
    pHspace0_stop '\n' rest (by decide) (by decide) (by decide)
  have e9 := optComment_ne '\n' rest (by decide)
  simp only [pDeps, e1, e2, e3, e4, e5, e6, e7, e8, e9, pEol_nl]

lemma pCmds_two (f : Nat) (c1 c2 : List Char) (hc1 : CmdOk c1) (hc2 : CmdOk c2) :
    pCmds (f + 3) ('\t' :: (c1 ++ '\n' :: ('\t' :: (c2 ++ ['\n']))))
      = ([some c1, some c2], []) := by
  obtain ⟨hne1, hch1, hl1⟩ := hc1
  obtain ⟨hne2, hch2, hl2⟩ := hc2
  have r1 : pRest (c1 ++ '\n' :: ('\t' :: (c2 ++ ['\n'])))
      = (c1, '\n' :: ('\t' :: (c2 ++ ['\n']))) := pRest_run c1 _ hch1 hl1
  have r2 : pRest (c2 ++ ['\n']) = (c2, ['\n']) := pRest_run c2 [] hch2 hl2
  have o1 := optComment_ne '\n' ('\t' :: (c2 ++ ['\n'])) (by decide)
  have o2 := optComment_ne '\n' ([] : List Char) (by decide)
  simp [pCmds, pRecipe, pRecipeAlt, pComment, r1, r2, o1, o2, pEol_nl]

lemma pTask_full (f : Nat) (name d1 d2 c1 c2 : List Char)
    (hn : IdentOk name) (h1 : IdentOk d1) (h2 : IdentOk d2)
    (hc1 : CmdOk c1) (hc2 : CmdOk c2) :
    pTask (f + 3)
        (name ++ ':' :: ' ' :: (d1 ++ ' ' :: (d2 ++ '\n' ::
          ('\t' :: (c1 ++ '\n' :: ('\t' :: (c2 ++ ['\n'])))))))
      = some ((name, [d1, d2], [c1, c2]), []) := by
  have eI := pIdentifier_exact name
    (':' :: ' ' :: (d1 ++ ' ' :: (d2 ++ '\n' ::
      ('\t' :: (c1 ++ '\n' :: ('\t' :: (c2 ++ ['\n'])))))))
    hn (headNot_of ':' (by decide) _)
  have eH : pHspace0 (':' :: ' ' :: (d1 ++ ' ' :: (d2 ++ '\n' ::
      ('\t' :: (c1 ++ '\n' :: ('\t' :: (c2 ++ ['\n'])))))))
      = ':' :: ' ' :: (d1 ++ ' ' :: (d2 ++ '\n' ::
        ('\t' :: (c1 ++ '\n' :: ('\t' :: (c2 ++ ['\n'])))))) :=
    pHspace0_stop ':' _ (by decide) (by decide) (by decide)
  have eH2 : pHspace0 (' ' :: (d1 ++ ' ' :: (d2 ++ '\n' ::
      ('\t' :: (c1 ++ '\n' :: ('\t' :: (c2 ++ ['\n'])))))))
      = d1 ++ ' ' :: (d2 ++ '\n' ::
        ('\t' :: (c1 ++ '\n' :: ('\t' :: (c2 ++ ['\n']))))) := by
    rw [pHspace0_space, pHspace0_identStart _ _ h1]
  have eD := pDeps_two f d1 d2
    ('\t' :: (c1 ++ '\n' :: ('\t' :: (c2 ++ ['\n'])))) h1 h2
  have eC := pCmds_two f c1 c2 hc1 hc2
  obtain ⟨hne1, _, _⟩ := hc1
  obtain ⟨hne2, _, _⟩ := hc2
  simp [pTask, eI, eH, eH2, eD, eC, cmdFilter, hne1, hne2]

lemma pTerm_task_shape (fuel : Nat) (name R : List Char)
    (deps cmds : List (List Char)) (tail : List Char)
    (hn : IdentOk name) (hkw : NoKw name)
    (hT : pTask fuel (name ++ ':' :: R) = some ((name, deps, cmds), tail)) :
    pTerm fuel (name ++ ':' :: R)
      = some (Term.task name.asString (deps.map List.asString)
          (cmds.map List.asString), tail) := by
  obtain ⟨k1, k2, k3, k4, k5, k6⟩ := hkw
  have t1 : pTag "define".data (name ++ ':' :: R) = none :=
    pTag_none _ _ (isPrefixOf_colon_break _ name R (by decide) k1)
  have t2 : pTag "include".data (name ++ ':' :: R) = none :=
    pTag_none _ _ (isPrefixOf_colon_break _ name R (by decide) k2)
  have t3 : pTag "ifeq".data (name ++ ':' :: R) = none :=
    pTag_none _ _ (isPrefixOf_colon_break _ name R (by decide) k3)
  have t4 : pTag "ifneq".data (name ++ ':' :: R) = none :=
    pTag_none _ _ (isPrefixOf_colon_break _ name R (by decide) k4)
  have t5 : pTag "ifdef".data (name ++ ':' :: R) = none :=
    pTag_none _ _ (isPrefixOf_colon_break _ name R (by decide) k5)
  have t6 : pTag "ifndef".data (name ++ ':' :: R) = none :=
    pTag_none _ _ (isPrefixOf_colon_break _ name R (by decide) k6)
  have e0 := pEmpty_identStart name (':' :: R) hn
  have hD : pDefine (name ++ ':' :: R) = none := by simp [pDefine, t1]
  have hI : pInclude (name ++ ':' :: R) = none := by simp [pInclude, t2]
  have hCs : pCondStart (name ++ ':' :: R) = none := by
    simp [pCondStart, t3, t4, t5, t6]
  have hC : pConditional (name ++ ':' :: R) = none := by
    simp [pConditional, hCs]
  have hV : pVar (name ++ ':' :: R) = none := by
    have eI := pIdentifier_exact name (':' :: R) hn (headNot_of ':' (by decide) _)
    have eH := pHspace0_stop ':' R (by decide) (by decide) (by decide)
    have eQ := pEq_ne ':' R (by decide) (by decide)
    simp [pVar, eI, eH, eQ]
  have hCm := pComment_identStart name (':' :: R) hn
  simp [pTerm, e0, hD, hI, hC, hV, hCm, hT]

lemma pTerms_single (L : List Char) (t : Term) (hne : L ≠ [])
    (hT : pTerm (L.length + 1) L = some (t, [])) :
    pTerms (L.length + 1) L = some [t] := by
  cases L with
  | nil => exact absurd rfl hne
  | cons c T =>
      have hfl : (c :: T).length + 1 = T.length + 1 + 1 := by simp
      rw [hfl] at hT ⊢
      rw [pTerms]
      have hnil : pTerms (T.length + 1) ([] : List Char) = some [] := by
        rw [pTerms]
        simp
      have hsp : pHspace0 ([] : List Char) = [] := rfl
      simp [hT, hnil, hsp]

/-- C1: the claim states that resolve_vars substitutes the literal
unresolved reference text for an occurrence whose name is absent from the
map, leaving the rest of the string intact.  The code instead substitutes
the WHOLE original string for such an occurrence
(variables.get(key).unwrap_or(str.0)): resolving the string
containing A-then-B with only A bound yields a corrupted result instead of
the documented one, so the claim is right and the code is wrong (the spec
itself flags this fallback as a bug). -/
theorem claim_C1 :
    resolve_vars [("A", "lib")] "${A}/${B}" = "lib/${A}/${B}" ∧
    ("lib/${A}/${B}" : String) ≠ "lib/${B}" := by decide

/-- C2 counterexample: the claim states that within one file each task
name appears exactly once in the assembled map (repeated rules merged).
Makefile::from_terms keys tasks by freshly generated IDs and never merges
by name: assembling the two rules of name x yields two entries named x. -/
theorem claim_C2_cex :
    ((from_terms ⟨"task", 0⟩ [] "f"
      [Term.task "x" ["a"] [], Term.task "x" ["b"] ["cmd"]]).1.tasks.map
        (fun kv => kv.2.name)).count "x" = 2 := by decide

/-- C2 amended: assembling a term sequence yields one task entry per Task
term, each stored under a fresh generated ID with exactly that term's
dependency and command lists (no merging by name): for x-colon-a followed
by x-colon-b with body cmd, the map holds task0 mapsto (x, [a], []) and
task1 mapsto (x, [b], [cmd]). -/
theorem claim_C2_amended :
    (∀ (g : IDGen) (ext : List External) (p : String) (terms : List Term),
        ((from_terms g ext p terms).1.tasks).length = numTasks terms) ∧
    ((from_terms ⟨"task", 0⟩ [] "f"
        [Term.task "x" ["a"] [], Term.task "x" ["b"] ["cmd"]]).1.tasks.lookup
          "task0" = some ⟨false, "x", ["a"], []⟩ ∧
     (from_terms ⟨"task", 0⟩ [] "f"
        [Term.task "x" ["a"] [], Term.task "x" ["b"] ["cmd"]]).1.tasks.lookup
          "task1" = some ⟨false, "x", ["b"], ["cmd"]⟩) := by
  refine ⟨fun g ext p terms => ?_, by decide, by decide⟩
  rw [from_terms, fromTerms_fold_len]
  simp

/-- C3: the claim states that the assembled task map never contains a task
named .PHONY.  Makefile::from_terms consumes the .PHONY dependency lists
to set the phony flags but, unlike the earlier from_ast variant in
src/main.rs, it never filters the .PHONY rule out of the task loop: the
rule is inserted as an ordinary task, so the claim is right and the code
is wrong. -/
theorem claim_C3 :
    ((from_terms ⟨"task", 0⟩ [] "f"
      [Term.task ".PHONY" ["a"] [], Term.task "a" [] []]).1.tasks.map
        (fun kv => kv.2.name)).contains ".PHONY" = true ∧
    (from_terms ⟨"task", 0⟩ [] "f"
      [Term.task ".PHONY" ["a"] [], Term.task "a" [] []]).1.tasks
      = [("task0", ⟨false, ".PHONY", ["a"], []⟩),
         ("task1", ⟨true, "a", [], []⟩)] := by decide

/-- C4: the claim states that scanning the recipe line
make -C DIR-reference build test (with DIR=sub) yields one external edge
with both task names [build, test].  The positionals regex consumes the
whitespace that terminates a match, so in successive non-overlapping
matches the word test has no preceding whitespace left and is dropped:
the code extracts only [build] (the path part of the claim does hold:
the captured path resolves to sub).  The spec states every positional
word is extracted, so the claim is right and the code is wrong. -/
theorem claim_C4 :
    parse_make_line "make -C ${DIR} build test"
        = some ("${DIR}", ["build"]) ∧
    resolve_vars [("DIR", "sub")] "${DIR}" = "sub" ∧
    (["build"] : List String) ≠ ["build", "test"] := by decide

/-- C5 counterexample: the claim quantifies over all identifiers that are
well-formed under the lexical rules; includes is such an identifier
(a nonempty run of identifier characters), yet parsing
includes-colon-d1-d2 with two tab-indented commands fails entirely
(returns a parse error, not one Task term): the include alternative of
the term alternation consumes the line as the include keyword followed by
rest-of-line, after which the tab-indented body lines match no term. -/
theorem claim_C5_cex :
    IdentOk "includes".data ∧ IdentOk "d1".data ∧ IdentOk "d2".data ∧
    CmdOk "cmd1".data ∧ CmdOk "cmd2".data ∧
    parseMakefile "includes: d1 d2\n\tcmd1\n\tcmd2\n" = none :=
  ⟨by decide, by decide, by decide, by decide, by decide, by decide⟩

/-- C5 amended: for all well-formed identifiers name, dep1, dep2 whose
name does not start with one of the keyword spellings tried before the
task alternative (define, include, ifeq, ifneq, ifdef, ifndef), and all
well-formed command texts cmd1, cmd2, parsing the text
name-colon-space dep1 space dep2 newline tab cmd1 newline tab cmd2
newline succeeds and yields exactly one Task term with dependencies
[dep1, dep2] and commands [cmd1, cmd2]. -/
theorem claim_C5_amended (name d1 d2 c1 c2 : List Char)
    (hn : IdentOk name) (hkw : NoKw name) (h1 : IdentOk d1) (h2 : IdentOk d2)
    (hc1 : CmdOk c1) (hc2 : CmdOk c2) :
    parseMakefile ((name ++ ':' :: ' ' :: (d1 ++ ' ' :: (d2 ++ '\n' ::
        ('\t' :: (c1 ++ '\n' :: ('\t' :: (c2 ++ ['\n']))))))).asString)
      = some [Term.task name.asString [d1.asString, d2.asString]
          [c1.asString, c2.asString]] := by
  show pTerms ((name ++ ':' :: ' ' :: (d1 ++ ' ' :: (d2 ++ '\n' ::
      ('\t' :: (c1 ++ '\n' :: ('\t' :: (c2 ++ ['\n']))))))).length + 1)
      (name ++ ':' :: ' ' :: (d1 ++ ' ' :: (d2 ++ '\n' ::
      ('\t' :: (c1 ++ '\n' :: ('\t' :: (c2 ++ ['\n'])))))))
    = some [Term.task name.asString [d1.asString, d2.asString]
        [c1.asString, c2.asString]]
  refine pTerms_single _ _ ?_ ?_
  · intro h
    rcases List.append_eq_nil.mp h with ⟨-, h2⟩
    exact List.noConfusion h2
  · obtain ⟨f0, hf0⟩ : ∃ f0,
        (name ++ ':' :: ' ' :: (d1 ++ ' ' :: (d2 ++ '\n' ::
          ('\t' :: (c1 ++ '\n' :: ('\t' :: (c2 ++ ['\n']))))))).length + 1
          = f0 + 3 := by
      have hp : 0 < name.length := List.length_pos.mpr hn.1
      refine ⟨(name ++ ':' :: ' ' :: (d1 ++ ' ' :: (d2 ++ '\n' ::
          ('\t' :: (c1 ++ '\n' :: ('\t' :: (c2 ++ ['\n']))))))).length - 2, ?_⟩
      simp only [List.length_append, List.length_cons]
      omega
    rw [hf0]
    exact pTerm_task_shape (f0 + 3) name
      (' ' :: (d1 ++ ' ' :: (d2 ++ '\n' ::
        ('\t' :: (c1 ++ '\n' :: ('\t' :: (c2 ++ ['\n'])))))))
      [d1, d2] [c1, c2] [] hn hkw
      (pTask_full f0 name d1 d2 c1 c2 hn h1 h2 hc1 hc2)

/-- C5 witness: the amended grammar round-trip evaluated at the concrete
task all with dependencies foo and bar and two concrete commands. -/
theorem claim_C5_witness :
    (IdentOk "all".data ∧ NoKw "all".data ∧ IdentOk "foo".data ∧
     IdentOk "bar".data ∧ CmdOk "gcc -o x".data ∧ CmdOk "echo hi".data) ∧
    parseMakefile (("all".data ++ ':' :: ' ' :: ("foo".data ++ ' ' ::
        ("bar".data ++ '\n' :: ('\t' :: ("gcc -o x".data ++ '\n' ::
          ('\t' :: ("echo hi".data ++ ['\n']))))))).asString)
      = some [Term.task "all".data.asString
          ["foo".data.asString, "bar".data.asString]
          ["gcc -o x".data.asString, "echo hi".data.asString]] :=
  ⟨⟨by decide, by decide, by decide, by decide, by decide, by decide⟩,
   claim_C5_amended "all".data "foo".data "bar".data "gcc -o x".data
     "echo hi".data (by decide) (by decide) (by decide) (by decide)
     (by decide) (by decide)⟩

/-- C6: for every pair of distinct canonical paths a and b whose files
each discover one external invocation of the other, the walk seeded with a
terminates (within fuel 3), visits each path exactly once, and returns
exactly the two Makefile entries [a, b] (b's back-reference to a is
recorded as an edge but not re-enqueued, since a is already in the
completed list). -/
theorem claim_C6 (a b : String) (hab : a ≠ b) :
    walk_model
        (fun p => if p = a then [some b]
                  else if p = b then [some a] else []) 3 [a] [] []
      = some ([a, b], [(a, b), (b, a)]) ∧
    [a, b].count a = 1 ∧ [a, b].count b = 1 := by
  have hba : ¬ (b = a) := fun h => hab h.symm
  refine ⟨?_, ?_, ?_⟩
  · have h1 : (((fun p => if p = a then [some b]
        else if p = b then [some a] else []) a).filterMap id) = [b] := by
      simp
    have h2 : (((fun p => if p = a then [some b]
        else if p = b then [some a] else []) b).filterMap id) = [a] := by
      simp [hba]
    show walk_model _ (2 + 1) [a] [] [] = _
    rw [walk_model_step, h1]
    have e1 : enqueueNew [] [] [b] = [b] := by
      rw [enqueueNew_cons, enqueueNew_nil]
      simp
    rw [e1]
    simp only [List.nil_append, List.map_cons, List.map_nil]
    show walk_model _ (1 + 1) [b] [a] [(a, b)] = _
    rw [walk_model_step, h2]
    have e2 : enqueueNew [a] [] [a] = [] := by
      rw [enqueueNew_cons, enqueueNew_nil]
      simp
    rw [e2]
    simp only [List.cons_append, List.nil_append, List.map_cons, List.map_nil]
    rw [walk_model_done]
  · simp [List.count_cons, hba]
  · simp [List.count_cons, hab]

/-- C6 witness: the cycle-safety walk evaluated at the concrete pair of
paths A and B. -/
theorem claim_C6_witness :
    ("A" : String) ≠ "B" ∧
    (walk_model
        (fun p => if p = "A" then [some "B"]
                  else if p = "B" then [some "A"] else []) 3 ["A"] [] []
      = some (["A", "B"], [("A", "B"), ("B", "A")]) ∧
    ["A", "B"].count "A" = 1 ∧ ["A", "B"].count "B" = 1) :=
  ⟨by decide, claim_C6 "A" "B" (by decide)⟩

/-- C7: successive calls of IDGen::next yield the prefix followed by a
strictly increasing counter, and across a multi-file ingestion sharing one
generator the complete list of assigned task IDs (which are the immutable
keys of the per-file task maps) contains no duplicate, so no ID is ever
reassigned or reused. -/
theorem claim_C7 :
    (∀ g : IDGen, g.next.1 = g.pre ++ natStr g.counter ∧
        g.next.2.pre = g.pre ∧ g.next.2.counter = g.counter + 1) ∧
    (∀ (tss : List (List Term)) (p0 : String) (c0 : Nat),
        (allKeys (ingestAll ⟨p0, c0⟩ tss).1).Nodup) := by
  refine ⟨fun g => ⟨rfl, rfl, rfl⟩, fun tss p0 c0 => ?_⟩
  rw [(ingestAll_keys tss ⟨p0, c0⟩).1]
  refine List.Nodup.map ?_ (List.nodup_range _)
  intro k1 k2 h
  have h1 := string_append_cancel _ _ _ h
  have h2 := natStr_inj _ _ h1
  omega

/-- C8: when resolving one discovered external path fails (the oracle
returns none for that edge, mirroring a canonicalization error), only that
edge is dropped: the other edge of the same file is resolved, recorded and
enqueued, the walk processes the remaining queued path and returns a
result. -/
theorem claim_C8 :
    walk_model (fun p => if p = "A" then [none, some "B"] else []) 3
      ["A"] [] [] = some (["A", "B"], [("A", "B")]) := by decide

/-- C9: the visited check of walk_from consults only the pending queue and
the completed list, and the path being processed is in neither at check
time; a file whose recipe resolves to its own canonical path is therefore
re-enqueued, and the walk terminates with that path appearing twice in the
returned Makefile list (on the second visit the path is already in the
completed list, so it is not enqueued a third time). -/
theorem claim_C9 :
    walk_model (fun _ => [some "A"]) 3 ["A"] [] []
        = some (["A", "A"], [("A", "A"), ("A", "A")]) ∧
    ["A", "A"].count "A" = 2 := by decide

/-- C10: parse_make_line extracts as requested task names only
whitespace-preceded words consisting of a word character followed by at
least one further token character, so every extracted name has length at
least two; a single-character task name is never extracted. -/
theorem claim_C10 (line : String) (p : String) (ts : List String)
    (h : parse_make_line line = some (p, ts)) :
    ∀ t ∈ ts, 2 ≤ t.length := by
  intro t ht
  unfold parse_make_line at h
  rcases hm : findMake line.data with _ | args
  · rw [hm] at h; exact absurd h (by simp)
  · rw [hm] at h
    simp only at h
    rcases hp : findPath args with _ | pp
    · rw [hp] at h; exact absurd h (by simp)
    · rw [hp] at h
      simp only [Option.some.injEq, Prod.mk.injEq] at h
      rw [← h.2] at ht
      rcases List.mem_map.mp ht with ⟨x, hx, hxt⟩
      rcases positionals_shape _ _ _ hx with ⟨d, tl, hshape, htl⟩
      have hlen : 2 ≤ x.length := by
        rw [hshape]
        cases tl with
        | nil => exact absurd rfl htl
        | cons y ys => simp
      rw [← hxt]
      simpa [List.asString, String.length] using hlen

/-- C10 witness: the scanner evaluated on a concrete recipe line with a
single-character trailing word; the word a is not extracted (the -C value
sub, being a whitespace-preceded word of length three, is). -/
theorem claim_C10_witness :
    parse_make_line "make -C sub a" = some ("sub", ["sub"]) ∧
    (∀ t ∈ (["sub"] : List String), 2 ≤ t.length) :=
  ⟨by decide, claim_C10 "make -C sub a" "sub" ["sub"] (by decide)⟩
